import Mathlib

set_option autoImplicit false
set_option maxHeartbeats 1000000
set_option maxRecDepth 4000

/-!
Verification development for the fleetcron agent (src/agent.py).

The Python source is shallowly embedded: strings are lists of characters,
JSON-like values are an inductive type, the document store is explicit
state, and the HTTP transport is an oracle argument.  Every definition is
annotated with the source lines it embeds.
-/

namespace Fleetcron

/-! ## String primitives (Python `in` and `str.replace`) -/

/-- Substring occurrence, modelling the Python `in` operator on strings
(used at src/agent.py line 767 for the render.com check, and implicitly by
`str.replace`). -/
def occursIn (p : List Char) : List Char → Bool
  | [] => p.isEmpty
  | c :: t => p.isPrefixOf (c :: t) || occursIn p t

/-- Fuel-indexed worker for `replaceAll`; the fuel only serves structural
termination and is always at least the length of the string. -/
def replaceAllAux (p r : List Char) : Nat → List Char → List Char
  | 0, s => s
  | _ + 1, [] => []
  | fuel + 1, c :: t =>
    if p ≠ [] ∧ p.isPrefixOf (c :: t) then
      r ++ replaceAllAux p r fuel (t.drop (p.length - 1))
    else
      c :: replaceAllAux p r fuel t

/-- Python `s.replace(p, r)`: replace all non-overlapping occurrences of `p`
left to right (src/agent.py line 409).  `resolve_templates` only ever uses
non-empty patterns; for an empty `p` this returns `s` unchanged. -/
def replaceAll (p r s : List Char) : List Char :=
  replaceAllAux p r s.length s

theorem occursIn_cons (p : List Char) (c : Char) (t : List Char) :
    occursIn p (c :: t) = (p.isPrefixOf (c :: t) || occursIn p t) := rfl

theorem replaceAllAux_of_not_occurs (p r : List Char) :
    ∀ (fuel : Nat) (s : List Char), occursIn p s = false → replaceAllAux p r fuel s = s := by
  intro fuel
  induction fuel with
  | zero => intro s _; rfl
  | succ n ih =>
    intro s h
    match s with
    | [] => rfl
    | c :: t =>
      rw [occursIn_cons, Bool.or_eq_false_iff] at h
      rw [replaceAllAux, if_neg, ih t h.2]
      intro hc
      rw [hc.2] at h
      exact absurd h.1 (by simp)

/-- If the pattern does not occur in the string, replacement is the
identity. -/
theorem replaceAll_of_not_occurs (p r s : List Char) (h : occursIn p s = false) :
    replaceAll p r s = s :=
  replaceAllAux_of_not_occurs p r s.length s h

/-! ## Template resolution (src/agent.py lines 405-415, claim C3) -/

/-- The literal token `\x7b\x7bKEY\x7d\x7d` built from a secret key
(src/agent.py line 409). -/
def tmplOf (k : List Char) : List Char :=
  '\x7b' :: '\x7b' :: (k ++ ['\x7d', '\x7d'])

/-- String-level part of resolve_templates (src/agent.py lines 406-410):
for each secret pair in configuration order, replace its token by the
secret value in the running output. -/
def resolveStr (secrets : List (List Char × List Char)) (s : List Char) : List Char :=
  secrets.foldl (fun out kv => replaceAll (tmplOf kv.1) kv.2 out) s

mutual
/-- JSON-like values as they appear in job documents: strings, mappings,
sequences and other scalars. -/
inductive Val : Type where
  | vStr (s : List Char)
  | vInt (n : Int)
  | vBool (b : Bool)
  | vNull
  | vList (items : ValList)
  | vDict (entries : EntryList)

inductive ValList : Type where
  | nil
  | cons (v : Val) (rest : ValList)

inductive EntryList : Type where
  | nil
  | cons (k : List Char) (v : Val) (rest : EntryList)
end

mutual
/-- resolve_templates (src/agent.py lines 405-415): strings get token
replacement, dicts and lists recurse, all other values pass through. -/
def resolve_templates (secrets : List (List Char × List Char)) : Val → Val
  | .vStr s => .vStr (resolveStr secrets s)
  | .vInt n => .vInt n
  | .vBool b => .vBool b
  | .vNull => .vNull
  | .vList items => .vList (resolve_templates_list secrets items)
  | .vDict entries => .vDict (resolve_templates_entries secrets entries)

def resolve_templates_list (secrets : List (List Char × List Char)) : ValList → ValList
  | .nil => .nil
  | .cons v rest => .cons (resolve_templates secrets v) (resolve_templates_list secrets rest)

def resolve_templates_entries (secrets : List (List Char × List Char)) : EntryList → EntryList
  | .nil => .nil
  | .cons k v rest => .cons k (resolve_templates secrets v) (resolve_templates_entries secrets rest)
end

/-- A string is clean when no secret token occurs in it. -/
def strClean (secrets : List (List Char × List Char)) (s : List Char) : Bool :=
  secrets.all (fun kv => !(occursIn (tmplOf kv.1) s))

mutual
/-- A value is clean when every string leaf is clean. -/
def valClean (secrets : List (List Char × List Char)) : Val → Bool
  | .vStr s => strClean secrets s
  | .vInt _ => true
  | .vBool _ => true
  | .vNull => true
  | .vList items => valListClean secrets items
  | .vDict entries => entriesClean secrets entries

def valListClean (secrets : List (List Char × List Char)) : ValList → Bool
  | .nil => true
  | .cons v rest => valClean secrets v && valListClean secrets rest

def entriesClean (secrets : List (List Char × List Char)) : EntryList → Bool
  | .nil => true
  | .cons _ v rest => valClean secrets v && entriesClean secrets rest
end

theorem resolveStr_of_clean (secrets : List (List Char × List Char)) :
    ∀ s : List Char, strClean secrets s = true → resolveStr secrets s = s := by
  induction secrets with
  | nil => intro s _; rfl
  | cons kv rest ih =>
    intro s h
    rw [strClean, List.all_cons, Bool.and_eq_true] at h
    have h1 : occursIn (tmplOf kv.1) s = false := by
      have h2 := h.1
      rwa [Bool.not_eq_eq_eq_not, Bool.not_true] at h2
    show resolveStr rest (replaceAll (tmplOf kv.1) kv.2 s) = s
    rw [replaceAll_of_not_occurs _ _ _ h1]
    exact ih s h.2

mutual
theorem resolve_templates_of_clean (secrets : List (List Char × List Char)) :
    ∀ v : Val, valClean secrets v = true → resolve_templates secrets v = v
  | .vStr s, h => by
    rw [resolve_templates, resolveStr_of_clean secrets s h]
  | .vInt n, _ => rfl
  | .vBool b, _ => rfl
  | .vNull, _ => rfl
  | .vList items, h => by
    rw [resolve_templates, resolve_templates_list_of_clean secrets items h]
  | .vDict entries, h => by
    rw [resolve_templates, resolve_templates_entries_of_clean secrets entries h]

theorem resolve_templates_list_of_clean (secrets : List (List Char × List Char)) :
    ∀ l : ValList, valListClean secrets l = true → resolve_templates_list secrets l = l
  | .nil, _ => rfl
  | .cons v rest, h => by
    rw [valListClean, Bool.and_eq_true] at h
    rw [resolve_templates_list, resolve_templates_of_clean secrets v h.1,
      resolve_templates_list_of_clean secrets rest h.2]

theorem resolve_templates_entries_of_clean (secrets : List (List Char × List Char)) :
    ∀ l : EntryList, entriesClean secrets l = true → resolve_templates_entries secrets l = l
  | .nil, _ => rfl
  | .cons k v rest, h => by
    rw [entriesClean, Bool.and_eq_true] at h
    rw [resolve_templates_entries, resolve_templates_of_clean secrets v h.1,
      resolve_templates_entries_of_clean secrets rest h.2]
end

/-- Projection used to compare string values without deriving decidable
equality for the mutual inductive. -/
def strOfVal : Val → List Char
  | .vStr s => s
  | _ => []

/-- Secrets of the C3 counterexample: A maps to x, B maps to the token of A
(in that configuration order). -/
def cexSecrets : List (List Char × List Char) :=
  [(("A".toList), ("x".toList)), (("B".toList), ("\x7b\x7bA\x7d\x7d".toList))]

/-- Input string of the C3 counterexample: the token of B. -/
def cexStr : List Char := "\x7b\x7bB\x7d\x7d".toList

/-- C3 counterexample: resolve_templates is not idempotent.  With secrets
A maps-to x, B maps-to the token of A (iterated in that order), resolving the
token of B once yields the token of A (the A pass ran before B introduced
its token), and resolving again yields x.  So a second application changes
the value, and a template introduced by a substituted secret value IS
interpreted on the next application. -/
theorem resolve_templates_not_idempotent :
    resolve_templates cexSecrets (resolve_templates cexSecrets (Val.vStr cexStr)) ≠
      resolve_templates cexSecrets (Val.vStr cexStr) := by
  intro h
  have h2 := congrArg strOfVal h
  have hL : strOfVal (resolve_templates cexSecrets (resolve_templates cexSecrets (Val.vStr cexStr))) =
      resolveStr cexSecrets (resolveStr cexSecrets cexStr) := rfl
  have hR : strOfVal (resolve_templates cexSecrets (Val.vStr cexStr)) =
      resolveStr cexSecrets cexStr := rfl
  rw [hL, hR] at h2
  exact absurd h2 (by decide)

/-- C3 (amended): resolve_templates is idempotent on every value whose
single-pass result is free of secret tokens: resolve(resolve(v)) =
resolve(v) whenever no token of a configured secret key occurs in any
string leaf of resolve(v).  (As stated the claim is false: a substituted
secret value can introduce a token of a key handled earlier in the
configuration order, which a second pass then interprets; see the
counterexample.) -/
theorem resolve_templates_idempotent_of_clean (secrets : List (List Char × List Char))
    (v : Val) (h : valClean secrets (resolve_templates secrets v) = true) :
    resolve_templates secrets (resolve_templates secrets v) = resolve_templates secrets v :=
  resolve_templates_of_clean secrets _ h

/-- Witness for the amended C3 at a concrete clean input. -/
theorem resolve_templates_idempotent_witness :
    valClean [(("A".toList), ("x".toList))]
        (resolve_templates [(("A".toList), ("x".toList))] (Val.vStr ("hello".toList))) = true ∧
    resolve_templates [(("A".toList), ("x".toList))]
        (resolve_templates [(("A".toList), ("x".toList))] (Val.vStr ("hello".toList))) =
      resolve_templates [(("A".toList), ("x".toList))] (Val.vStr ("hello".toList)) :=
  ⟨by decide, resolve_templates_idempotent_of_clean _ _ (by decide)⟩

/-! ## Run claiming, single execution (src/agent.py lines 634-655, claim C1)

The store executes each find_one_and_update atomically, so any concurrent
history of claim attempts for one (job_id, scheduled_for) key is a sequence
of atomic steps on that key's document.  The unique index on
(job_id, scheduled_for) (src/agent.py line 400) means at most one document
per key; its claimed_by field is the state below (none = no document). -/

/-- One atomic claim attempt by machine m (claim_job_run, src/agent.py
634-655): insert-and-claim when no document exists; re-claim succeeds for
the same machine (filter claimed_by in [None, machine_id]); any other
machine misses the filter, the upsert insert hits the unique index, the
DuplicateKeyError is caught, and False is returned with the document
untouched. -/
def claimStep (st : Option String) (m : String) : Bool × Option String :=
  match st with
  | none => (true, some m)
  | some c => if c = m then (true, some m) else (false, some c)

/-- Final claimed_by after a sequence of claim attempts. -/
def claimState (st : Option String) : List String → Option String
  | [] => st
  | m :: rest => claimState (claimStep st m).2 rest

/-- Return values of a sequence of claim attempts. -/
def claimResults (st : Option String) : List String → List Bool
  | [] => []
  | m :: rest => (claimStep st m).1 :: claimResults (claimStep st m).2 rest

theorem claimState_claimed (c : String) :
    ∀ ops : List String, claimState (some c) ops = some c := by
  intro ops
  induction ops with
  | nil => rfl
  | cons m rest ih =>
    show claimState (claimStep (some c) m).2 rest = some c
    rw [claimStep]
    by_cases h : c = m
    · rw [if_pos h]
      simp only [h] at ih ⊢
      exact ih
    · rw [if_neg h]
      exact ih

theorem claimResults_claimed (c : String) :
    ∀ ops : List String, claimResults (some c) ops = ops.map (fun m => decide (c = m)) := by
  intro ops
  induction ops with
  | nil => rfl
  | cons m rest ih =>
    show (claimStep (some c) m).1 :: claimResults (claimStep (some c) m).2 rest = _
    rw [claimStep, List.map_cons]
    by_cases h : c = m
    · simp only [if_pos h, decide_eq_true_eq]
      refine congrArg₂ _ (by simp [h]) ?_
      simp only [h] at ih ⊢
      exact ih
    · simp only [if_neg h]
      refine congrArg₂ _ (by simp [h]) ?_
      exact ih

/-- C1: single execution per (job_id, scheduled_minute_utc).  For every
interleaving of atomic claim attempts on one key, starting from no
document: the surviving document's claimed_by is the first claimant (and
only that one machine ever holds the claim, since every prefix of ops is
itself quantified here); a document exists iff at least one attempt was
made, and exactly one document can exist at all (the state is one
Option); and an attempt returns True exactly when its machine is the
first claimant, so exactly one machine proceeds to execute the job for
that minute. -/
theorem claim_single_execution (ops : List String) :
    claimState none ops = ops.head? ∧
    (claimState none ops).isSome = !ops.isEmpty ∧
    claimResults none ops = ops.map (fun m => decide (ops.head? = some m)) := by
  match ops with
  | [] => exact ⟨rfl, rfl, rfl⟩
  | m :: rest =>
    refine ⟨?_, ?_, ?_⟩
    · show claimState (claimStep none m).2 rest = some m
      rw [claimStep]
      exact claimState_claimed m rest
    · show (claimState (claimStep none m).2 rest).isSome = _
      rw [claimStep]
      rw [claimState_claimed m rest]
      rfl
    · show (claimStep none m).1 :: claimResults (claimStep none m).2 rest = _
      rw [claimStep, List.map_cons]
      refine congrArg₂ _ (by simp) ?_
      rw [claimResults_claimed m rest]
      refine List.map_congr_left ?_
      intro a _
      simp only [List.head?_cons, Option.some.injEq]

/-! ## Earlier-alive test (src/agent.py lines 616-631, claim C7) -/

/-- The fields of a machines document used by the earlier-alive test
(projection of get_all_machines_sorted, src/agent.py 351-357).
last_online_minute is none when the field is absent; its value is the UTC
minute timestamp encoded as an integer. -/
structure Machine where
  machine_id : String
  last_online_minute : Option Int

/-- The 1-based enumerate loop of check_earlier_machines_online
(src/agent.py 623-631): break once idx reaches my_position, return True on
the first machine whose last_online_minute equals the scheduled minute. -/
def checkEarlierLoop (pos : Nat) (sched : Int) : List Machine → Nat → Bool
  | [], _ => false
  | m :: rest, idx =>
    if pos ≤ idx then false
    else if m.last_online_minute == some sched then true
    else checkEarlierLoop pos sched rest (idx + 1)

/-- check_earlier_machines_online (src/agent.py 616-631): positions ≤ 1
never stand down; otherwise scan the machines before my position. -/
def check_earlier_machines_online (machines : List Machine) (pos : Nat) (sched : Int) : Bool :=
  if pos ≤ 1 then false
  else checkEarlierLoop pos sched machines 1

theorem checkEarlierLoop_iff (pos : Nat) (sched : Int) :
    ∀ (l : List Machine) (idx0 : Nat),
      checkEarlierLoop pos sched l idx0 = true ↔
        ∃ i m, l.get? i = some m ∧ idx0 + i < pos ∧ m.last_online_minute = some sched := by
  intro l
  induction l with
  | nil =>
    intro idx0
    simp [checkEarlierLoop]
  | cons m rest ih =>
    intro idx0
    rw [checkEarlierLoop]
    by_cases hb : pos ≤ idx0
    · rw [if_pos hb]
      simp only [Bool.false_eq_true, false_iff]
      rintro ⟨i, m2, _, hlt, _⟩
      omega
    · rw [if_neg hb]
      by_cases hm : m.last_online_minute = some sched
      · have : (m.last_online_minute == some sched) = true := beq_iff_eq.mpr hm
        rw [this, if_pos rfl]
        simp only [true_iff]
        exact ⟨0, m, rfl, by omega, hm⟩
      · have : (m.last_online_minute == some sched) = false := by
          simpa using hm
        rw [this]
        simp only [Bool.false_eq_true, if_false]
        rw [ih (idx0 + 1)]
        constructor
        · rintro ⟨i, m2, hget, hlt, hlast⟩
          exact ⟨i + 1, m2, hget, by omega, hlast⟩
        · rintro ⟨i, m2, hget, hlt, hlast⟩
          match i with
          | 0 =>
            have hm2 : m = m2 := by simpa using hget
            rw [← hm2] at hlast
            exact absurd hlast hm
          | j + 1 =>
            exact ⟨j, m2, hget, by omega, hlast⟩

/-- C7: the earlier-alive test stands down exactly when some machine at
1-based sorted index i with 1 ≤ i < pos (and i within the list) has
last_online_minute equal to the scheduled minute; in particular a machine
at position 1 (or 0) never stands down, and only the pos - 1 machines
before it are inspected. -/
theorem check_earlier_machines_online_iff (machines : List Machine) (pos : Nat) (sched : Int) :
    check_earlier_machines_online machines pos sched = true ↔
      ∃ i m, machines.get? i = some m ∧ i + 1 < pos ∧
        m.last_online_minute = some sched := by
  rw [check_earlier_machines_online]
  by_cases h1 : pos ≤ 1
  · rw [if_pos h1]
    simp only [Bool.false_eq_true, false_iff]
    rintro ⟨i, m, _, hlt, _⟩
    omega
  · rw [if_neg h1, checkEarlierLoop_iff]
    constructor
    · rintro ⟨i, m, hget, hlt, hlast⟩
      exact ⟨i, m, hget, by omega, hlast⟩
    · rintro ⟨i, m, hget, hlt, hlast⟩
      exact ⟨i, m, hget, by omega, hlast⟩

/-! ## Transport selection (src/agent.py lines 743, 766-789, claim C9) -/

/-- The three HTTP transports of run_http_with_retry_with_progress. -/
inductive Transport where
  | curl
  | cloudscraper
  | session
deriving DecidableEq

/-- Python str.upper on our character lists (src/agent.py line 743). -/
def upperStr (s : List Char) : List Char := s.map Char.toUpper

/-- Python str.lower on our character lists (src/agent.py line 767). -/
def lowerStr (s : List Char) : List Char := s.map Char.toLower

/-- Transport selection of run_http_with_retry_with_progress
(src/agent.py 766-789): method is the uppercased step method (line 743);
use_cloudscraper is the step flag or a render.com substring in the
lowercased resolved url (line 767); curl only for use_curl and GET
(line 769); the cloudscraper branch additionally needs the library
importable (USE_CLOUDSCRAPER, line 771); otherwise the shared session. -/
def selectTransport (useCurl : Bool) (rawMethod : List Char) (useCloudFlag : Bool)
    (url : List Char) (csAvailable : Bool) : Transport :=
  let method := upperStr rawMethod
  let useCloud := useCloudFlag || occursIn ("render.com".toList) (lowerStr url)
  if useCurl && method == ("GET".toList) then Transport.curl
  else if csAvailable && useCloud then Transport.cloudscraper
  else Transport.session

/-- C9: the curl subprocess transport is taken exactly for use_curl steps
whose uppercased method is GET; for any other step (in particular use_curl
with a non-GET method) the request goes to cloudscraper exactly when that
transport is selected (flag or render.com URL) and the library is
available, and to the standard session otherwise. -/
theorem transport_selection_characterization (useCurl : Bool) (rawMethod : List Char)
    (useCloudFlag : Bool) (url : List Char) (csAvailable : Bool) :
    (selectTransport useCurl rawMethod useCloudFlag url csAvailable = Transport.curl ↔
      useCurl = true ∧ upperStr rawMethod = ("GET".toList)) ∧
    (selectTransport useCurl rawMethod useCloudFlag url csAvailable = Transport.cloudscraper ↔
      ¬(useCurl = true ∧ upperStr rawMethod = ("GET".toList)) ∧ csAvailable = true ∧
        (useCloudFlag = true ∨ occursIn ("render.com".toList) (lowerStr url) = true)) ∧
    (selectTransport useCurl rawMethod useCloudFlag url csAvailable = Transport.session ↔
      ¬(useCurl = true ∧ upperStr rawMethod = ("GET".toList)) ∧
        ¬(csAvailable = true ∧
          (useCloudFlag = true ∨ occursIn ("render.com".toList) (lowerStr url) = true))) := by
  cases useCurl <;> cases useCloudFlag <;> cases csAvailable <;>
    by_cases hm : upperStr rawMethod = ("GET".toList) <;>
    by_cases hr : occursIn ("render.com".toList) (lowerStr url) = true <;>
    simp_all [selectTransport, beq_iff_eq]

/-! ## Order value extraction (src/agent.py lines 312-322, claim C10) -/

/-- Python dict lookup on a document with string keys; values have the
abstract type α (Mongo documents can hold any BSON value). -/
def lookupDoc {α : Type} : List (List Char × α) → List Char → Option α
  | [], _ => none
  | (k0, v) :: rest, k => if k0 = k then some v else lookupDoc rest k

/-- Exception classes a call to int(v) can raise: ValueError (e.g. a
non-numeric string), TypeError (e.g. a list), or any other exception such
as the OverflowError raised by int(float('inf')) on a BSON double
Infinity. -/
inductive PyExc where
  | valueError
  | typeError
  | otherExc
deriving DecidableEq

/-- The except clause at src/agent.py line 320 names exactly
(ValueError, TypeError); every other exception propagates. -/
def caughtByLoop : PyExc → Bool
  | .valueError => true
  | .typeError => true
  | .otherExc => false

/-- The alias loop of extract_order_value (src/agent.py 316-321).
isNone v models `v is None`; intOf v models the int(v) builtin:
Except.ok n is a successful conversion, Except.error e a raised e.  The
try/except swallows ValueError and TypeError with continue; any other
exception escapes the function. -/
def extractLoop {α : Type} (isNone : α → Bool) (intOf : α → Except PyExc Int)
    (doc : List (List Char × α)) (default : Int) : List (List Char) → Except PyExc Int
  | [] => Except.ok default
  | k :: rest =>
    match lookupDoc doc k with
    | some v =>
      if isNone v then extractLoop isNone intOf doc default rest
      else
        match intOf v with
        | Except.ok n => Except.ok n
        | Except.error e =>
          if caughtByLoop e then extractLoop isNone intOf doc default rest
          else Except.error e
    | none => extractLoop isNone intOf doc default rest

/-- extract_order_value (src/agent.py 312-322): a falsy document (None or
empty) yields DEFAULT_ORDER_VALUE directly; otherwise the alias loop runs
and its result — a returned integer, the default, or an uncaught
exception — is the result of the function. -/
def extract_order_value {α : Type} (isNone : α → Bool) (intOf : α → Except PyExc Int)
    (aliases : List (List Char)) (default : Int)
    (doc : Option (List (List Char × α))) : Except PyExc Int :=
  match doc with
  | none => Except.ok default
  | some [] => Except.ok default
  | some d => extractLoop isNone intOf d default aliases

/-- What one alias contributes, written from the amended claim text: none
when its value is absent, null, or fails conversion with a caught
(ValueError/TypeError) exception; a returned integer on success; a
propagated exception when the conversion raises anything else. -/
def aliasOutcome {α : Type} (isNone : α → Bool) (intOf : α → Except PyExc Int)
    (doc : List (List Char × α)) (k : List Char) : Option (Except PyExc Int) :=
  match lookupDoc doc k with
  | some v =>
    if isNone v then none
    else
      match intOf v with
      | Except.ok n => some (Except.ok n)
      | Except.error e => if caughtByLoop e then none else some (Except.error e)
  | none => none

/-- Reference form of the amended claim: the first alias with an outcome
(an integer, or an uncaught exception) decides; if no alias has an
outcome, the default is returned. -/
def extractOrderSpec {α : Type} (isNone : α → Bool) (intOf : α → Except PyExc Int)
    (aliases : List (List Char)) (default : Int)
    (doc : Option (List (List Char × α))) : Except PyExc Int :=
  match doc with
  | none => Except.ok default
  | some d =>
    ((aliases.filterMap (aliasOutcome isNone intOf d)).head?).getD (Except.ok default)

theorem extractLoop_eq_spec {α : Type} (isNone : α → Bool) (intOf : α → Except PyExc Int)
    (doc : List (List Char × α)) (default : Int) :
    ∀ aliases : List (List Char),
      extractLoop isNone intOf doc default aliases =
        ((aliases.filterMap (aliasOutcome isNone intOf doc)).head?).getD
          (Except.ok default) := by
  intro aliases
  induction aliases with
  | nil => rfl
  | cons k rest ih =>
    rw [extractLoop, List.filterMap_cons]
    cases hv : lookupDoc doc k with
    | none =>
      simp only [aliasOutcome, hv]
      exact ih
    | some v =>
      by_cases hn : isNone v = true
      · simp only [aliasOutcome, hv, if_pos hn]
        exact ih
      · cases hi : intOf v with
        | ok n =>
          simp only [aliasOutcome, hv, if_neg hn, hi, List.head?_cons, Option.getD_some]
        | error e =>
          by_cases hc : caughtByLoop e = true
          · simp only [aliasOutcome, hv, if_neg hn, hi, if_pos hc]
            exact ih
          · simp only [aliasOutcome, hv, if_neg hn, hi, if_neg hc, List.head?_cons,
              Option.getD_some]

/-- Concrete value universe for the C10 counterexample: a machines
document can hold a BSON double Infinity in an order field;
int(float('inf')) raises OverflowError, which line 320 does not catch. -/
inductive BsonInf where
  | doubleInf
deriving DecidableEq

def bsonInfIsNone : BsonInf → Bool := fun _ => false

def bsonInfIntOf : BsonInf → Except PyExc Int := fun _ => Except.error PyExc.otherExc

/-- C10 counterexample: the claim "values that fail int conversion are
skipped rather than raising" is false.  On a document whose order field
holds a BSON double Infinity, int() raises OverflowError; the except
clause at src/agent.py 320 catches only (ValueError, TypeError), so
extract_order_value propagates the exception instead of skipping the
alias and returning the default 9999. -/
theorem extract_order_value_raises_counterexample :
    extract_order_value bsonInfIsNone bsonInfIntOf
        [("order".toList), ("serial".toList)] 9999
        (some [(("order".toList), BsonInf.doubleInf)]) =
      Except.error PyExc.otherExc ∧
    extract_order_value bsonInfIsNone bsonInfIntOf
        [("order".toList), ("serial".toList)] 9999
        (some [(("order".toList), BsonInf.doubleInf)]) ≠
      Except.ok 9999 := by
  refine ⟨rfl, ?_⟩
  intro h
  have h2 : (Except.error PyExc.otherExc : Except PyExc Int) = Except.ok 9999 := h
  exact Except.noConfusion h2

/-- C10 (amended): extract_order_value returns the integer value of the
first order-field alias whose value is present, non-null, and whose int()
conversion succeeds; an alias whose conversion raises ValueError or
TypeError is skipped, but a conversion raising any other exception (such
as OverflowError on a BSON double Infinity) propagates out of the
function; when every alias is absent, null, or skipped — including for a
None or empty document — the configured default (9999 by default) is
returned.  Quantified over the int(...) semantics intOf, the alias list
and the configured default. -/
theorem extract_order_value_correct {α : Type} (isNone : α → Bool)
    (intOf : α → Except PyExc Int) (aliases : List (List Char)) (default : Int)
    (doc : Option (List (List Char × α))) :
    extract_order_value isNone intOf aliases default doc =
      extractOrderSpec isNone intOf aliases default doc := by
  match doc with
  | none => rfl
  | some [] =>
    have hnil : ∀ al : List (List Char),
        al.filterMap (aliasOutcome isNone intOf ([] : List (List Char × α))) = [] := by
      intro al
      induction al with
      | nil => rfl
      | cons k rest ih => rw [List.filterMap_cons]; exact ih
    show Except.ok default = (((aliases.filterMap
        (aliasOutcome isNone intOf ([] : List (List Char × α)))).head?).getD
          (Except.ok default))
    rw [hnil]
    rfl
  | some (kv :: d) =>
    show extractLoop isNone intOf (kv :: d) default aliases = _
    rw [extractLoop_eq_spec]
    rfl

/-! ## Local time, when-conditions and the action chain
(src/agent.py lines 846-902, claim C2) -/

/-- A local datetime value: absolute day number plus hour, minute, second,
microsecond fields (datetime.replace and + timedelta(days=1) act on these;
month/year arithmetic is absorbed into the absolute day number). -/
structure LTime where
  day : Int
  hour : Int
  minute : Int
  second : Int
  micro : Int
deriving DecidableEq

/-- A when condition (src/agent.py 846-851): optional hour_in / minute_in
lists; an absent key is an absent Option. -/
structure WhenCond where
  hour_in : Option (List Int)
  minute_in : Option (List Int)

/-- when_match (src/agent.py 847-851): a missing/empty condition passes;
each present list must contain the current local hour resp. minute. -/
def when_match (w : Option WhenCond) (now : LTime) : Bool :=
  match w with
  | none => true
  | some w =>
    (match w.hour_in with
     | some hs => hs.contains now.hour
     | none => true) &&
    (match w.minute_in with
     | some ms => ms.contains now.minute
     | none => true)

/-- The fields of one action step that execute_actions consults.  The HTTP
call itself is abstracted into the oracle below. -/
structure ActionStep where
  typ : Option (List Char)
  whenC : Option WhenCond
  continue_on_failure : Bool

/-- One entry of the steps log (src/agent.py 869, 874, 887-894), reduced to
the fields the claim speaks about: absolute step index and status string. -/
structure StepLog where
  index : Nat
  status : List Char
deriving DecidableEq

def okS : List Char := "ok".toList
def errS : List Char := "error".toList
def httpS : List Char := "http".toList
def skippedUnsupS : List Char := "skipped_unsupported".toList
def skippedWhenS : List Char := "skipped_when".toList

/-- Loop of execute_actions (src/agent.py 862-901) from absolute index idx
on: non-http steps log skipped_unsupported; unmatched when logs
skipped_when; otherwise the oracle gives the step runner outcome
(true = "ok"); an error without continue_on_failure breaks with overall
"error".  Returns (status_overall, steps_log, successful_actions). -/
def execGo (oracle : Nat → Bool) (now : LTime) :
    List ActionStep → Nat → List Char × List StepLog × Nat
  | [], _ => (okS, [], 0)
  | step :: rest, idx =>
    if step.typ.getD httpS ≠ httpS then
      ((execGo oracle now rest (idx + 1)).1,
        ⟨idx, skippedUnsupS⟩ :: (execGo oracle now rest (idx + 1)).2.1,
        (execGo oracle now rest (idx + 1)).2.2)
    else if when_match step.whenC now = false then
      ((execGo oracle now rest (idx + 1)).1,
        ⟨idx, skippedWhenS⟩ :: (execGo oracle now rest (idx + 1)).2.1,
        (execGo oracle now rest (idx + 1)).2.2)
    else if oracle idx = true then
      ((execGo oracle now rest (idx + 1)).1,
        ⟨idx, okS⟩ :: (execGo oracle now rest (idx + 1)).2.1,
        (execGo oracle now rest (idx + 1)).2.2 + 1)
    else if step.continue_on_failure = true then
      ((execGo oracle now rest (idx + 1)).1,
        ⟨idx, errS⟩ :: (execGo oracle now rest (idx + 1)).2.1,
        (execGo oracle now rest (idx + 1)).2.2)
    else
      (errS, [⟨idx, errS⟩], 0)

/-- execute_actions (src/agent.py 854-902) on a job's actions list. -/
def execute_actions (oracle : Nat → Bool) (now : LTime) (actions : List ActionStep) :
    List Char × List StepLog × Nat :=
  execGo oracle now actions 0

theorem execGo_index_lb (oracle : Nat → Bool) (now : LTime) :
    ∀ (l : List ActionStep) (idx : Nat) (e : StepLog),
      e ∈ (execGo oracle now l idx).2.1 → idx ≤ e.index := by
  intro l
  induction l with
  | nil =>
    intro idx e he
    exact absurd he (by simp [execGo])
  | cons step rest ih =>
    intro idx e he
    rw [execGo] at he
    by_cases h1 : step.typ.getD httpS ≠ httpS
    · rw [if_pos h1] at he
      rcases List.mem_cons.mp he with h | h
      · rw [h]
      · exact Nat.le_of_succ_le (ih (idx + 1) e h)
    · rw [if_neg h1] at he
      by_cases h2 : when_match step.whenC now = false
      · rw [if_pos h2] at he
        rcases List.mem_cons.mp he with h | h
        · rw [h]
        · exact Nat.le_of_succ_le (ih (idx + 1) e h)
      · rw [if_neg h2] at he
        by_cases h3 : oracle idx = true
        · rw [if_pos h3] at he
          rcases List.mem_cons.mp he with h | h
          · rw [h]
          · exact Nat.le_of_succ_le (ih (idx + 1) e h)
        · rw [if_neg h3] at he
          by_cases h4 : step.continue_on_failure = true
          · rw [if_pos h4] at he
            rcases List.mem_cons.mp he with h | h
            · rw [h]
            · exact Nat.le_of_succ_le (ih (idx + 1) e h)
          · rw [if_neg h4] at he
            rcases List.mem_cons.mp he with h | h
            · rw [h]
            · exact absurd h (by simp)

/-- Prepending one non-breaking log entry preserves the break
characterization. -/
theorem execGo_cons_iff (oracle : Nat → Bool) (now : LTime) (rest : List ActionStep)
    (idx : Nat) (step : ActionStep) (entry : StepLog)
    (hidx : entry.index = idx)
    (hcov : entry = StepLog.mk idx errS → step.continue_on_failure = true)
    (ihf : (execGo oracle now rest (idx + 1)).1 = errS ↔
      ∃ p a, rest.get? p = some a ∧ a.continue_on_failure = false ∧
        StepLog.mk (idx + 1 + p) errS ∈ (execGo oracle now rest (idx + 1)).2.1) :
    (execGo oracle now rest (idx + 1)).1 = errS ↔
      ∃ p a, (step :: rest).get? p = some a ∧ a.continue_on_failure = false ∧
        StepLog.mk (idx + p) errS ∈ entry :: (execGo oracle now rest (idx + 1)).2.1 := by
  constructor
  · intro h
    obtain ⟨p, a, hget, hcof, hmem⟩ := ihf.mp h
    refine ⟨p + 1, a, ?_, hcof, ?_⟩
    · rw [List.get?_cons_succ]; exact hget
    · apply List.mem_cons_of_mem
      have : idx + (p + 1) = idx + 1 + p := by omega
      rw [this]
      exact hmem
  · rintro ⟨p, a, hget, hcof, hmem⟩
    rcases List.mem_cons.mp hmem with h | h
    · have hp0 : idx + p = entry.index := by rw [← h]
      rw [hidx] at hp0
      have : p = 0 := by omega
      rw [this] at hget h
      rw [List.get?_cons_zero, Option.some.injEq] at hget
      have hcof2 := hcov (by rw [← h]; rfl)
      rw [← hget] at hcof
      rw [hcof2] at hcof
      exact absurd hcof (by simp)
    · match p with
      | 0 =>
        have := execGo_index_lb oracle now rest (idx + 1) _ h
        simp only at this
        omega
      | q + 1 =>
        rw [List.get?_cons_succ] at hget
        apply ihf.mpr
        refine ⟨q, a, hget, hcof, ?_⟩
        have : idx + 1 + q = idx + (q + 1) := by omega
        rw [this]
        exact h

theorem execGo_status_iff (oracle : Nat → Bool) (now : LTime) :
    ∀ (l : List ActionStep) (idx : Nat),
      (execGo oracle now l idx).1 = errS ↔
        ∃ p a, l.get? p = some a ∧ a.continue_on_failure = false ∧
          StepLog.mk (idx + p) errS ∈ (execGo oracle now l idx).2.1 := by
  intro l
  induction l with
  | nil =>
    intro idx
    constructor
    · intro h
      have h2 : okS = errS := h
      exact absurd h2 (by decide)
    · rintro ⟨p, a, hget, _, _⟩
      exact absurd hget (by simp)
  | cons step rest ih =>
    intro idx
    rw [execGo]
    by_cases h1 : step.typ.getD httpS ≠ httpS
    · rw [if_pos h1]
      exact execGo_cons_iff oracle now rest idx step ⟨idx, skippedUnsupS⟩ rfl
        (fun h => absurd (congrArg StepLog.status h)
          (show ¬(skippedUnsupS = errS) by decide)) (ih (idx + 1))
    · rw [if_neg h1]
      by_cases h2 : when_match step.whenC now = false
      · rw [if_pos h2]
        exact execGo_cons_iff oracle now rest idx step ⟨idx, skippedWhenS⟩ rfl
          (fun h => absurd (congrArg StepLog.status h)
            (show ¬(skippedWhenS = errS) by decide)) (ih (idx + 1))
      · rw [if_neg h2]
        by_cases h3 : oracle idx = true
        · rw [if_pos h3]
          exact execGo_cons_iff oracle now rest idx step ⟨idx, okS⟩ rfl
            (fun h => absurd (congrArg StepLog.status h)
              (show ¬(okS = errS) by decide)) (ih (idx + 1))
        · rw [if_neg h3]
          by_cases h4 : step.continue_on_failure = true
          · rw [if_pos h4]
            exact execGo_cons_iff oracle now rest idx step ⟨idx, errS⟩ rfl
              (fun _ => h4) (ih (idx + 1))
          · rw [if_neg h4]
            constructor
            · intro _
              refine ⟨0, step, List.get?_cons_zero, ?_, ?_⟩
              · rw [Bool.eq_false_iff]; exact h4
              · simp
            · intro _
              rfl

theorem execGo_status_cases (oracle : Nat → Bool) (now : LTime) :
    ∀ (l : List ActionStep) (idx : Nat),
      (execGo oracle now l idx).1 = okS ∨ (execGo oracle now l idx).1 = errS := by
  intro l
  induction l with
  | nil => intro idx; exact Or.inl rfl
  | cons step rest ih =>
    intro idx
    rw [execGo]
    by_cases h1 : step.typ.getD httpS ≠ httpS
    · rw [if_pos h1]; exact ih (idx + 1)
    · rw [if_neg h1]
      by_cases h2 : when_match step.whenC now = false
      · rw [if_pos h2]; exact ih (idx + 1)
      · rw [if_neg h2]
        by_cases h3 : oracle idx = true
        · rw [if_pos h3]; exact ih (idx + 1)
        · rw [if_neg h3]
          by_cases h4 : step.continue_on_failure = true
          · rw [if_pos h4]; exact ih (idx + 1)
          · rw [if_neg h4]; exact Or.inr rfl

/-- C2 counterexample: a single http step whose runner errors but which has
continue_on_failure=true yields overall status "ok" although the executed
step errored (the log records the error entry).  src/agent.py 898-900 only
sets status_overall="error" on the break path, so an errored
continue_on_failure step leaves the overall status "ok", contradicting the
claim that any executed error forces overall "error". -/
theorem execute_actions_cof_counterexample :
    (execute_actions (fun _ => false) ⟨0, 0, 0, 0, 0⟩
        [⟨none, none, true⟩]).1 = okS ∧
    StepLog.mk 0 errS ∈ (execute_actions (fun _ => false) ⟨0, 0, 0, 0, 0⟩
        [⟨none, none, true⟩]).2.1 ∧
    okS ≠ errS := by
  refine ⟨rfl, ?_, by decide⟩
  show StepLog.mk 0 errS ∈ [StepLog.mk 0 errS]
  exact List.mem_singleton.mpr rfl

/-- C2 (amended): overall status is "error" iff the chain broke, i.e. iff
some executed step errored and did not have continue_on_failure (its error
entry being in the log at that step's index); an executed step that errored
with continue_on_failure set leaves overall status "ok" (unless a later
step breaks).  The status is always "ok" or "error". -/
theorem execute_actions_overall_status (oracle : Nat → Bool) (now : LTime)
    (actions : List ActionStep) :
    ((execute_actions oracle now actions).1 = errS ↔
      ∃ p a, actions.get? p = some a ∧ a.continue_on_failure = false ∧
        StepLog.mk p errS ∈ (execute_actions oracle now actions).2.1) ∧
    ((execute_actions oracle now actions).1 = okS ∨
      (execute_actions oracle now actions).1 = errS) := by
  constructor
  · have h := execGo_status_iff oracle now actions 0
    simpa using h
  · exact execGo_status_cases oracle now actions 0

/-! ## HTTP retry loop (src/agent.py lines 732-840, claim C4) -/

/-- Result of one HTTP attempt: a response with a status code, or a raised
transport exception. -/
inductive AttemptRes where
  | httpResp (status_code : Int)
  | httpExc
deriving DecidableEq

/-- Success test of an attempt (src/agent.py line 801): 200 ≤ code < 300. -/
def attemptOk : AttemptRes → Bool
  | .httpResp c => decide (200 ≤ c ∧ c < 300)
  | .httpExc => false

/-- The while-True attempt loop of run_http_with_retry_with_progress
(src/agent.py 753-840), with the HTTP transport abstracted as oracle a =
result of the a-th attempt (1-based) and the sleeps dropped (they do not
affect control flow).  attempts is both the count of attempts performed
and the reported info["attempts"]: the source uses one variable for both
(lines 749, 754, 802, 828).  The fuel argument only provides structural
termination; the wrapper passes enough fuel that the 0 case is never
reached (runRetryAux_bound). -/
def runRetryAux (retries : Int) (oracle : Nat → AttemptRes) : Nat → Nat → List Char × Nat
  | 0, attempts => (errS, attempts)
  | fuel + 1, attempts =>
    if attemptOk (oracle (attempts + 1)) then (okS, attempts + 1)
    else if retries < ((attempts : Int) + 1) then (errS, attempts + 1)
    else runRetryAux retries oracle fuel (attempts + 1)

/-- run_http_with_retry_with_progress (src/agent.py 732-840), reduced to
(status, attempts).  retries is the merged integer retry count
(line 739). -/
def run_http_with_retry_with_progress (retries : Int) (oracle : Nat → AttemptRes) :
    List Char × Nat :=
  runRetryAux retries oracle ((retries + 1).toNat + 1) 0

theorem runRetryAux_bound (retries : Int) (oracle : Nat → AttemptRes) :
    ∀ (fuel attempts : Nat), (retries + 1 - (attempts : Int)).toNat < fuel →
      ((attempts : Int) + 1 ≤ ((runRetryAux retries oracle fuel attempts).2 : Int) ∧
        ((runRetryAux retries oracle fuel attempts).2 : Int) ≤
          max (retries + 1) ((attempts : Int) + 1)) := by
  intro fuel
  induction fuel with
  | zero =>
    intro attempts h
    omega
  | succ n ih =>
    intro attempts h
    rw [runRetryAux]
    by_cases h1 : attemptOk (oracle (attempts + 1)) = true
    · rw [if_pos h1]
      constructor <;> simp
    · rw [if_neg h1]
      by_cases h2 : retries < ((attempts : Int) + 1)
      · rw [if_pos h2]
        constructor <;> simp
      · rw [if_neg h2]
        have hrec := ih (attempts + 1) (by push_cast; omega)
        push_cast at hrec ⊢
        omega

/-- C4 counterexample: the retry bound fails as stated for a configured
negative retries.  With retries = -1 (src/agent.py line 739 accepts any
int) the loop performs one attempt (the check at line 827 fires
immediately) and reports attempts = 1, yet retries + 1 = 0, so the runner
performed more than retries + 1 attempts. -/
theorem retry_bound_counterexample :
    (run_http_with_retry_with_progress (-1) (fun _ => AttemptRes.httpExc)).2 = 1 ∧
    ¬ (((run_http_with_retry_with_progress (-1) (fun _ => AttemptRes.httpExc)).2 : Int) ≤
        (-1) + 1) := by
  constructor
  · rfl
  · show ¬ ((1 : Int) ≤ (-1) + 1)
    omega

/-- C4 (amended): for every step and merged retry configuration the runner
performs at least one and at most max(retries + 1, 1) HTTP attempts; in
particular, whenever the configured retries is nonnegative it performs at
most retries + 1 attempts.  The reported attempts field equals the number
of attempts performed (both are the single loop counter of
src/agent.py lines 749-754). -/
theorem retry_attempt_bound (retries : Int) (oracle : Nat → AttemptRes)
    (h : 0 ≤ retries) :
    1 ≤ (run_http_with_retry_with_progress retries oracle).2 ∧
    ((run_http_with_retry_with_progress retries oracle).2 : Int) ≤ retries + 1 := by
  have hb := runRetryAux_bound retries oracle ((retries + 1).toNat + 1) 0 (by omega)
  rw [run_http_with_retry_with_progress]
  constructor
  · omega
  · omega

/-- Witness for the amended C4 with retries = 2 and an always-failing
endpoint. -/
theorem retry_attempt_bound_witness :
    1 ≤ (run_http_with_retry_with_progress 2 (fun _ => AttemptRes.httpExc)).2 ∧
    ((run_http_with_retry_with_progress 2 (fun _ => AttemptRes.httpExc)).2 : Int) ≤ 2 + 1 :=
  retry_attempt_bound 2 (fun _ => AttemptRes.httpExc) (by omega)

/-! ## The atomic claim call (src/agent.py lines 634-655, claim C5) -/

/-- The job_runs document for one (job_id, scheduled_for) key, reduced to
the field the claim speaks about. -/
structure RunDoc where
  claimed_by : Option String
deriving DecidableEq

/-- Store-level error surfaced by the atomic call. -/
inductive DbErr where
  | duplicateKey
deriving DecidableEq

/-- The find_one_and_update upsert inside claim_job_run (src/agent.py
637-650) acting on the document state for one key, returning the AFTER
document and the new state.  A filter match (claimed_by in
[None, machine_id]) or a missing document sets the claim fields; a filter
miss on an existing document makes the upsert insert a second document
with the same key, which the unique index (line 400) rejects with
DuplicateKeyError, leaving the state unchanged. -/
def findOneAndUpdateClaim (st : Option RunDoc) (m : String) :
    Except DbErr (RunDoc × Option RunDoc) :=
  match st with
  | none => Except.ok (⟨some m⟩, some ⟨some m⟩)
  | some d =>
    if d.claimed_by = none ∨ d.claimed_by = some m then
      Except.ok (⟨some m⟩, some ⟨some m⟩)
    else
      Except.error DbErr.duplicateKey

/-- claim_job_run (src/agent.py 634-655): returns
doc.get("claimed_by") == machine_id on success and False on
DuplicateKeyError (the except clause at line 652).  First component is the
return value, second the post-state of the document. -/
def claim_job_run (st : Option RunDoc) (m : String) : Bool × Option RunDoc :=
  match findOneAndUpdateClaim st m with
  | Except.ok (doc, st2) => (doc.claimed_by == some m, st2)
  | Except.error _ => (false, st)

/-- C5: claim_job_run returns True iff after the atomic find-and-modify the
run document exists and its claimed_by equals the claimant, and a
duplicate-key violation on the unique (job_id, scheduled_for) index
produces the return value False rather than a raised error. -/
theorem claim_job_run_true_iff_claimed (st : Option RunDoc) (m : String) :
    ((claim_job_run st m).1 = true ↔
      ∃ d, (claim_job_run st m).2 = some d ∧ d.claimed_by = some m) ∧
    (findOneAndUpdateClaim st m = Except.error DbErr.duplicateKey →
      (claim_job_run st m).1 = false) := by
  match st with
  | none =>
    refine ⟨?_, ?_⟩
    · show ((some m == some m) = true ↔ _)
      simp [claim_job_run, findOneAndUpdateClaim]
    · intro h
      exact absurd h (by simp [findOneAndUpdateClaim])
  | some d =>
    by_cases hf : d.claimed_by = none ∨ d.claimed_by = some m
    · have hok : findOneAndUpdateClaim (some d) m = Except.ok (⟨some m⟩, some ⟨some m⟩) := by
        rw [findOneAndUpdateClaim, if_pos hf]
      refine ⟨?_, ?_⟩
      · rw [claim_job_run, hok]
        simp
      · intro h
        rw [hok] at h
        exact absurd h (by simp)
    · have herr : findOneAndUpdateClaim (some d) m = Except.error DbErr.duplicateKey := by
        rw [findOneAndUpdateClaim, if_neg hf]
      have hrun : claim_job_run (some d) m = (false, some d) := by
        rw [claim_job_run, herr]
      refine ⟨?_, fun _ => by rw [hrun]⟩
      rw [hrun]
      simp only [Bool.false_eq_true, false_iff]
      rintro ⟨d2, hd2, hcl⟩
      rw [Option.some.injEq] at hd2
      rw [← hd2] at hcl
      exact hf (Or.inr hcl)

/-- Witness for C5 at a concrete duplicate-key state: the document is
already claimed by machine B, so machine A's attempt errors internally
with DuplicateKeyError and claim_job_run returns False. -/
theorem claim_job_run_witness :
    ((claim_job_run (some ⟨some "B"⟩) "A").1 = true ↔
      ∃ d, (claim_job_run (some ⟨some "B"⟩) "A").2 = some d ∧ d.claimed_by = some "A") ∧
    (claim_job_run (some ⟨some "B"⟩) "A").1 = false :=
  ⟨(claim_job_run_true_iff_claimed (some ⟨some "B"⟩) "A").1,
    (claim_job_run_true_iff_claimed (some ⟨some "B"⟩) "A").2 (by
      have hc : ¬((some "B" : Option String) = none ∨
          (some "B" : Option String) = some "A") := by
        rintro (h | h)
        · exact Option.some_ne_none _ h
        · rw [Option.some.injEq] at h
          exact absurd h (by decide)
      rw [findOneAndUpdateClaim, if_neg hc])⟩

/-! ## The job index (src/agent.py lines 417-452, claim C8) -/

/-- One entry of a job's schedules list; absent keys are none
(sch.get("hour") and sch.get("minute", 0), src/agent.py 439). -/
structure SchedEntry where
  hour : Option Int
  minute : Option Int
deriving DecidableEq

/-- The scheduling fields of a jobs document (src/agent.py 436-441); jid
stands for the document identity (_id). -/
structure Job where
  jid : Int
  schedules : Option (List SchedEntry)
  hour : Option Int
  minute : Option Int
deriving DecidableEq

/-- Keys of the in-memory map: (hour, minute) pairs of Python ints. -/
abbrev JKey := Int × Int

/-- The in-memory map of JobsCache as an association list preserving
insertion order: key to bucket of jobs. -/
abbrev JMap := List (JKey × List Job)

/-- mp.setdefault(key, []).append(j) (src/agent.py 429 and 432). -/
def mapInsert : JMap → JKey → Job → JMap
  | [], k, j => [(k, [j])]
  | (k0, b) :: rest, k, j =>
    if k0 = k then (k0, b ++ [j]) :: rest else (k0, b) :: mapInsert rest k j

/-- Key lookup in the association map (self._map.get(key, [])). -/
def jmLookup : JMap → JKey → Option (List Job)
  | [], _ => none
  | (k0, b) :: rest, k => if k0 = k then some b else jmLookup rest k

/-- JobsCache.list_for (src/agent.py 450-452). -/
def list_for (mp : JMap) (h m : Int) : List Job := (jmLookup mp (h, m)).getD []

/-- The list of keys JobsCache._add_to (src/agent.py 425-432) inserts
under: hour = None expands to one key per hour 0..23 at the given minute,
otherwise the single (hour, minute) key. -/
def addKeys (hour : Option Int) (minute : Int) : List JKey :=
  match hour with
  | none => (List.range 24).map (fun (n : Nat) => ((n : Int), minute))
  | some h => [(h, minute)]

/-- JobsCache._add_to (src/agent.py 425-432): append j to the bucket of
every key it expands to. -/
def addTo (mp : JMap) (j : Job) (hour : Option Int) (minute : Int) : JMap :=
  (addKeys hour minute).foldl (fun acc k => mapInsert acc k j) mp

/-- Dispatch of one job in JobsCache.reload (src/agent.py 436-441): a
present non-empty schedules list wins (Python truthiness), otherwise the
flat hour/minute fields with minute defaulting to 0. -/
def addJobCore (mp : JMap) (j : Job) :
    Option (List SchedEntry) → Option Int → Option Int → JMap
  | some (s :: ss), _, _ =>
    (s :: ss).foldl (fun acc sch => addTo acc j sch.hour (sch.minute.getD 0)) mp
  | some [], hour, minute => addTo mp j hour (minute.getD 0)
  | none, hour, minute => addTo mp j hour (minute.getD 0)

def addJob (mp : JMap) (j : Job) : JMap :=
  addJobCore mp j j.schedules j.hour j.minute

/-- JobsCache.reload (src/agent.py 434-443) over the enabled jobs, in
query order, starting from the empty map. -/
def reloadMap (jobs : List Job) : JMap := jobs.foldl addJob []

/-- The keys a job is indexed under (derived form of the reload
dispatch). -/
def jobKeysCore : Option (List SchedEntry) → Option Int → Option Int → List JKey
  | some (s :: ss), _, _ => (s :: ss).flatMap (fun sch => addKeys sch.hour (sch.minute.getD 0))
  | some [], hour, minute => addKeys hour (minute.getD 0)
  | none, hour, minute => addKeys hour (minute.getD 0)

def jobKeys (j : Job) : List JKey := jobKeysCore j.schedules j.hour j.minute

theorem jmLookup_mapInsert (k : JKey) (j : Job) (q : JKey) :
    ∀ mp : JMap, jmLookup (mapInsert mp k j) q =
      if k = q then some ((jmLookup mp q).getD [] ++ [j]) else jmLookup mp q := by
  intro mp
  induction mp with
  | nil =>
    by_cases hkq : k = q
    · simp [mapInsert, jmLookup, hkq]
    · simp [mapInsert, jmLookup, hkq]
  | cons kv rest ih =>
    obtain ⟨k0, b⟩ := kv
    by_cases hk0k : k0 = k
    · subst hk0k
      by_cases hkq : k0 = q
      · subst hkq
        simp [mapInsert, jmLookup]
      · simp [mapInsert, jmLookup, hkq]
    · by_cases hk0q : k0 = q
      · subst hk0q
        have hkq : ¬ k = k0 := fun hx => hk0k hx.symm
        simp [mapInsert, jmLookup, hk0k, hkq]
      · simp [mapInsert, jmLookup, hk0k, hk0q, ih]

theorem list_for_mapInsert (mp : JMap) (k : JKey) (j : Job) (h m : Int) :
    list_for (mapInsert mp k j) h m =
      if k = (h, m) then list_for mp h m ++ [j] else list_for mp h m := by
  rw [list_for, jmLookup_mapInsert]
  by_cases hk : k = (h, m)
  · rw [if_pos hk, if_pos hk]
    rfl
  · rw [if_neg hk, if_neg hk]
    rfl

theorem mem_list_for_keys_foldl (j x : Job) (h m : Int) :
    ∀ (keys : List JKey) (mp : JMap),
      (x ∈ list_for (keys.foldl (fun acc k => mapInsert acc k j) mp) h m ↔
        x ∈ list_for mp h m ∨ (x = j ∧ (h, m) ∈ keys)) := by
  intro keys
  induction keys with
  | nil =>
    intro mp
    simp
  | cons k rest ih =>
    intro mp
    rw [List.foldl_cons, ih (mapInsert mp k j), list_for_mapInsert]
    by_cases hk : k = (h, m)
    · rw [if_pos hk]
      simp only [List.mem_append, List.mem_cons, List.not_mem_nil, or_false]
      constructor
      · rintro ((hx | hx) | hx)
        · exact Or.inl hx
        · exact Or.inr ⟨hx, Or.inl hk.symm⟩
        · exact Or.inr ⟨hx.1, Or.inr hx.2⟩
      · rintro (hx | ⟨hx, _ | hmem⟩)
        · exact Or.inl (Or.inl hx)
        · exact Or.inl (Or.inr hx)
        · exact Or.inr ⟨hx, hmem⟩
    · rw [if_neg hk]
      simp only [List.mem_cons]
      constructor
      · rintro (hx | hx)
        · exact Or.inl hx
        · exact Or.inr ⟨hx.1, Or.inr hx.2⟩
      · rintro (hx | ⟨hx, heq | hmem⟩)
        · exact Or.inl hx
        · exact absurd heq.symm hk
        · exact Or.inr ⟨hx, hmem⟩

theorem mem_list_for_addTo (mp : JMap) (j x : Job) (hour : Option Int) (minute : Int)
    (h m : Int) :
    x ∈ list_for (addTo mp j hour minute) h m ↔
      x ∈ list_for mp h m ∨ (x = j ∧ (h, m) ∈ addKeys hour minute) := by
  rw [addTo]
  exact mem_list_for_keys_foldl j x h m (addKeys hour minute) mp

theorem mem_list_for_schedfold (j x : Job) (h m : Int) :
    ∀ (schs : List SchedEntry) (mp : JMap),
      (x ∈ list_for (schs.foldl
          (fun acc sch => addTo acc j sch.hour (sch.minute.getD 0)) mp) h m ↔
        x ∈ list_for mp h m ∨ (x = j ∧
          (h, m) ∈ schs.flatMap (fun sch => addKeys sch.hour (sch.minute.getD 0)))) := by
  intro schs
  induction schs with
  | nil =>
    intro mp
    simp
  | cons sch rest ih =>
    intro mp
    rw [List.foldl_cons, ih, mem_list_for_addTo]
    simp only [List.flatMap_cons, List.mem_append]
    tauto

theorem mem_list_for_addJob (mp : JMap) (j x : Job) (h m : Int) :
    x ∈ list_for (addJob mp j) h m ↔
      x ∈ list_for mp h m ∨ (x = j ∧ (h, m) ∈ jobKeys j) := by
  rw [addJob, jobKeys]
  match hs : j.schedules with
  | some (s :: ss) =>
    rw [addJobCore, jobKeysCore]
    exact mem_list_for_schedfold j x h m (s :: ss) mp
  | some [] =>
    rw [addJobCore, jobKeysCore]
    exact mem_list_for_addTo mp j x j.hour (j.minute.getD 0) h m
  | none =>
    rw [addJobCore, jobKeysCore]
    exact mem_list_for_addTo mp j x j.hour (j.minute.getD 0) h m

theorem mem_list_for_jobs_foldl (x : Job) (h m : Int) :
    ∀ (jobs : List Job) (mp : JMap),
      (x ∈ list_for (jobs.foldl addJob mp) h m ↔
        x ∈ list_for mp h m ∨ ∃ j ∈ jobs, x = j ∧ (h, m) ∈ jobKeys j) := by
  intro jobs
  induction jobs with
  | nil =>
    intro mp
    simp
  | cons j rest ih =>
    intro mp
    rw [List.foldl_cons, ih, mem_list_for_addJob]
    constructor
    · rintro ((hx | hx) | ⟨j2, hj2, hx⟩)
      · exact Or.inl hx
      · exact Or.inr ⟨j, List.mem_cons_self j rest, hx⟩
      · exact Or.inr ⟨j2, List.mem_cons_of_mem j hj2, hx⟩
    · rintro (hx | ⟨j2, hj2, hx⟩)
      · exact Or.inl (Or.inl hx)
      · rcases List.mem_cons.mp hj2 with hj | hj
        · exact Or.inl (Or.inr (hj ▸ hx))
        · exact Or.inr ⟨j2, hj, hx⟩

/-- Membership characterization of the rebuilt job index: x is listed at
(h, m) iff x is one of the enabled jobs and (h, m) is one of its expanded
keys. -/
theorem mem_list_for_reload (jobs : List Job) (x : Job) (h m : Int) :
    x ∈ list_for (reloadMap jobs) h m ↔ ∃ j ∈ jobs, x = j ∧ (h, m) ∈ jobKeys j := by
  rw [reloadMap, mem_list_for_jobs_foldl]
  simp [list_for, jmLookup]

theorem mem_addKeys_none (minute : Int) (h m : Int) :
    (h, m) ∈ addKeys none minute ↔ (0 ≤ h ∧ h < 24 ∧ m = minute) := by
  rw [addKeys]
  constructor
  · intro hmem
    obtain ⟨n, hn, heq⟩ := List.mem_map.mp hmem
    rw [List.mem_range] at hn
    have heq2 : ((n : Int), minute) = (h, m) := heq
    rw [Prod.mk.injEq] at heq2
    obtain ⟨hh, hm⟩ := heq2
    refine ⟨?_, ?_, hm.symm⟩ <;> omega
  · rintro ⟨h0, h24, hm⟩
    refine List.mem_map.mpr ⟨h.toNat, List.mem_range.mpr (by omega), ?_⟩
    rw [Prod.mk.injEq]
    exact ⟨by omega, hm.symm⟩

/-- C8: hour = None expansion.  The key list a null-hour schedule (or flat
job) contributes has exactly 24 pairwise distinct entries, one per hour
0..23, all at the same minute; and a job with no (or empty) schedules and
absent hour and minute fields is indexed exactly at (h, 0) for every hour
0 ≤ h < 24 — its minute defaulted to 0. -/
theorem job_index_hour_null_expansion (minute : Int) (jobs : List Job) (j : Job) :
    (addKeys none minute).length = 24 ∧
    (∀ k ∈ addKeys none minute, k.2 = minute) ∧
    (∀ h : Int, (0 ≤ h ∧ h < 24) ↔ (h, minute) ∈ addKeys none minute) ∧
    (addKeys none minute).Nodup ∧
    (j ∈ jobs → (j.schedules = none ∨ j.schedules = some []) → j.hour = none →
      j.minute = none →
      ∀ h m : Int, j ∈ list_for (reloadMap jobs) h m ↔ (0 ≤ h ∧ h < 24 ∧ m = 0)) := by
  refine ⟨?_, ?_, ?_, ?_, ?_⟩
  · rw [addKeys, List.length_map, List.length_range]
  · intro k hk
    rw [addKeys] at hk
    simp only [List.mem_map] at hk
    obtain ⟨n, _, hn⟩ := hk
    rw [← hn]
  · intro h
    rw [mem_addKeys_none]
    constructor
    · rintro ⟨h1, h2⟩
      exact ⟨h1, h2, rfl⟩
    · rintro ⟨h1, h2, _⟩
      exact ⟨h1, h2⟩
  · rw [addKeys]
    refine (List.nodup_range 24).map ?_
    intro a b hab
    rw [Prod.mk.injEq] at hab
    exact_mod_cast hab.1
  · intro hj hsch hh hm h m
    have hkeys : jobKeys j = addKeys none 0 := by
      rcases hsch with hs | hs
      · rw [jobKeys, hs, jobKeysCore, hh, hm]
        rfl
      · rw [jobKeys, hs, jobKeysCore, hh, hm]
        rfl
    rw [mem_list_for_reload]
    constructor
    · rintro ⟨j2, hj2, hxj, hmem⟩
      rw [← hxj, hkeys, mem_addKeys_none] at hmem
      exact hmem
    · intro hx
      refine ⟨j, hj, rfl, ?_⟩
      rw [hkeys, mem_addKeys_none]
      exact hx

/-- Witness for C8 at a concrete default job (no schedules, no hour, no
minute) in a one-job fleet, probed at hour 5: it is indexed at (5, 0). -/
theorem job_index_hour_null_expansion_witness :
    Job.mk 1 none none none ∈
        list_for (reloadMap [Job.mk 1 none none none]) 5 0 ↔
      ((0 : Int) ≤ 5 ∧ (5 : Int) < 24 ∧ (0 : Int) = 0) :=
  (job_index_hour_null_expansion 0 [Job.mk 1 none none none]
    (Job.mk 1 none none none)).2.2.2.2
    (List.mem_singleton.mpr rfl) (Or.inl rfl) rfl rfl 5 0

/-! ## Next-fire lookup (src/agent.py lines 454-477, claim C6) -/

/-- Minute-of-day rank of a key, the order in which the nested loops of
get_next_schedule enumerate candidates. -/
def keyScore (k : JKey) : Int := k.1 * 60 + k.2

/-- A key the scanning loops (ranges 0..23 and 0..59) can actually
reach. -/
def validKey (k : JKey) : Bool :=
  decide (0 ≤ k.1) && decide (k.1 < 24) && decide (0 ≤ k.2) && decide (k.2 < 60)

/-- Field bounds of a well-formed datetime. -/
def validTime (t : LTime) : Prop :=
  0 ≤ t.hour ∧ t.hour < 24 ∧ 0 ≤ t.minute ∧ t.minute < 60 ∧
    0 ≤ t.second ∧ t.second < 60 ∧ 0 ≤ t.micro ∧ t.micro < 1000000

/-- Microseconds since the day-0 epoch; datetime comparison on valid times
coincides with comparison of this value. -/
def toMicros (t : LTime) : Int :=
  (((t.day * 24 + t.hour) * 60 + t.minute) * 60 + t.second) * 1000000 + t.micro

/-- All (h, m) pairs in the h-major, m-minor order in which the nested
loops of get_next_schedule (src/agent.py 462-475) enumerate them. -/
def allCands : List JKey :=
  (List.range 24).flatMap
    (fun (hh : Nat) => (List.range 60).map (fun (mm : Nat) => (((hh : Int)), ((mm : Int)))))

/-- The candidates of the today pass (src/agent.py 462-468): h from
current_hour on, skipping (h = current_hour and m ≤ current_minute). -/
def todayCands (t : LTime) : List JKey :=
  allCands.filter (fun hm =>
    decide (t.hour ≤ hm.1) && !(decide (hm.1 = t.hour) && decide (hm.2 ≤ t.minute)))

/-- JobsCache.get_next_schedule (src/agent.py 454-477), with keys the key
set of self._map in the Python dict.  An empty map returns None (line 456);
the today pass returns from_time.replace(hour=h, minute=m, second=0,
microsecond=0); the next-day pass additionally adds timedelta(days=1). -/
def get_next_schedule (keys : List JKey) (t : LTime) : Option LTime :=
  if keys.isEmpty then none
  else
    match (todayCands t).find? (fun hm => keys.contains hm) with
    | some hm => some ⟨t.day, hm.1, hm.2, 0, 0⟩
    | none =>
      match allCands.find? (fun hm => keys.contains hm) with
      | some hm => some ⟨t.day + 1, hm.1, hm.2, 0, 0⟩
      | none => none

/-- The first firing instant of key k strictly after time t, as the claim
describes it: today when (h, m) is strictly after t's (hour, minute),
otherwise on the next day. -/
def fireAfter (t : LTime) (k : JKey) : LTime :=
  if t.hour < k.1 ∨ (k.1 = t.hour ∧ t.minute < k.2) then ⟨t.day, k.1, k.2, 0, 0⟩
  else ⟨t.day + 1, k.1, k.2, 0, 0⟩

theorem validKey_iff (k : JKey) :
    validKey k = true ↔ (0 ≤ k.1 ∧ k.1 < 24 ∧ 0 ≤ k.2 ∧ k.2 < 60) := by
  simp [validKey, Bool.and_eq_true, decide_eq_true_eq, and_assoc]

theorem allCands_pairwise : allCands.Pairwise (fun a b => keyScore a < keyScore b) := by
  rw [allCands]
  have hgen : ∀ hs : List Nat, hs.Pairwise (· < ·) →
      (hs.flatMap (fun (hh : Nat) =>
        (List.range 60).map (fun (mm : Nat) => (((hh : Int)), ((mm : Int)))))).Pairwise
        (fun a b => keyScore a < keyScore b) := by
    intro hs
    induction hs with
    | nil =>
      intro _
      simp
    | cons hh rest ih =>
      intro hp
      rw [List.pairwise_cons] at hp
      rw [List.flatMap_cons]
      refine List.pairwise_append.mpr ⟨?_, ih hp.2, ?_⟩
      · refine (List.pairwise_lt_range 60).map _ ?_
        intro a b hab
        simp only [keyScore]
        omega
      · intro a ha b hb
        obtain ⟨mm, hmm, haeq⟩ := List.mem_map.mp ha
        rw [List.mem_range] at hmm
        obtain ⟨hh2, hh2mem, hb2⟩ := List.mem_flatMap.mp hb
        obtain ⟨mm2, hmm2, hbeq⟩ := List.mem_map.mp hb2
        rw [List.mem_range] at hmm2
        have hlt : hh < hh2 := hp.1 hh2 hh2mem
        rw [← haeq, ← hbeq]
        simp only [keyScore]
        omega
  exact hgen (List.range 24) (List.pairwise_lt_range 24)

theorem mem_allCands (k : JKey) : k ∈ allCands ↔ validKey k = true := by
  rw [allCands, validKey_iff]
  simp only [List.mem_flatMap, List.mem_map, List.mem_range]
  constructor
  · rintro ⟨hh, hh24, mm, hmm60, heq⟩
    have heq2 : (((hh : Int)), ((mm : Int))) = k := heq
    rw [Prod.mk.injEq] at heq2
    obtain ⟨h1, h2⟩ := heq2
    refine ⟨?_, ?_, ?_, ?_⟩ <;> omega
  · rintro ⟨h1, h2, h3, h4⟩
    refine ⟨k.1.toNat, by omega, k.2.toNat, by omega, ?_⟩
    rw [Prod.mk.injEq]
    constructor <;> omega

theorem mem_todayCands (t : LTime) (k : JKey) :
    k ∈ todayCands t ↔
      (validKey k = true ∧ (t.hour < k.1 ∨ (k.1 = t.hour ∧ t.minute < k.2))) := by
  rw [todayCands, List.mem_filter, mem_allCands]
  refine and_congr_right (fun _ => ?_)
  have hpred : (decide (t.hour ≤ k.1) &&
      !(decide (k.1 = t.hour) && decide (k.2 ≤ t.minute))) = true ↔
      (t.hour ≤ k.1 ∧ ¬(k.1 = t.hour ∧ k.2 ≤ t.minute)) := by
    simp
    tauto
  rw [hpred]
  omega

theorem todayCands_pairwise (t : LTime) :
    (todayCands t).Pairwise (fun a b => keyScore a < keyScore b) :=
  allCands_pairwise.sublist (List.filter_sublist allCands)

theorem find_first_min {α : Type} (p : α → Bool) (sc : α → Int) :
    ∀ l : List α, l.Pairwise (fun a b => sc a < sc b) →
      ∀ a, l.find? p = some a → ∀ b ∈ l, p b = true → sc a ≤ sc b := by
  intro l
  induction l with
  | nil =>
    intro _ a ha
    exact absurd ha (by simp)
  | cons x xs ih =>
    intro hp a ha b hb hpb
    rw [List.pairwise_cons] at hp
    by_cases hx : p x = true
    · rw [List.find?_cons_of_pos xs hx, Option.some.injEq] at ha
      rcases List.mem_cons.mp hb with hbx | hbx
      · rw [← ha, hbx]
      · rw [← ha]
        exact le_of_lt (hp.1 b hbx)
    · rw [List.find?_cons_of_neg xs (by simpa using hx)] at ha
      rcases List.mem_cons.mp hb with hbx | hbx
      · rw [hbx] at hpb
        exact absurd hpb hx
      · exact ih hp.2 a ha b hbx hpb

/-- C6 counterexample: the claim "returns null iff the map is empty" fails.
A jobs document with hour = 24 (never validated, src/agent.py 431 just
calls int()) puts the unreachable key (24, 0) in the map: the map is
non-empty, yet both scanning passes (h in range(24)) find nothing and
get_next_schedule returns None. -/
theorem next_schedule_none_counterexample :
    get_next_schedule [((24 : Int), (0 : Int))] ⟨0, 0, 0, 0, 0⟩ = none ∧
    ([((24 : Int), (0 : Int))] : List JKey) ≠ [] := by
  refine ⟨?_, by simp⟩
  have hno : ∀ x ∈ allCands,
      ¬ ((([((24 : Int), (0 : Int))]) : List JKey).contains x = true) := by
    intro x hx hc
    have hvx := (mem_allCands x).mp hx
    rw [validKey_iff] at hvx
    have hxm : x ∈ ([((24 : Int), (0 : Int))] : List JKey) := List.elem_iff.mp hc
    rw [List.mem_singleton] at hxm
    rw [hxm] at hvx
    omega
  have h1 : List.find? (fun hm => (([((24 : Int), (0 : Int))]) : List JKey).contains hm)
      (todayCands ⟨0, 0, 0, 0, 0⟩) = none :=
    List.find?_eq_none.mpr (fun x hx => hno x (List.mem_of_mem_filter hx))
  have h2 : List.find? (fun hm => (([((24 : Int), (0 : Int))]) : List JKey).contains hm)
      allCands = none :=
    List.find?_eq_none.mpr hno
  rw [get_next_schedule, if_neg (by simp), h1, h2]

/-- C6 (amended): for a valid local time t, get_next_schedule returns None
iff the map holds no key reachable by the scan (hour 0..23, minute 0..59)
— in particular iff the map is empty whenever all keys are in range — and
any returned datetime dt has seconds and microseconds zero, is strictly
greater than t, carries a key of the map as (hour, minute), and is the
earliest firing instant after t among all in-range keys of the map (today
for keys strictly after t's (hour, minute), else on the next day). -/
theorem next_schedule_correct (keys : List JKey) (t : LTime) (hv : validTime t) :
    (get_next_schedule keys t = none ↔ ∀ k ∈ keys, validKey k = false) ∧
    (∀ dt : LTime, get_next_schedule keys t = some dt →
      toMicros t < toMicros dt ∧ dt.second = 0 ∧ dt.micro = 0 ∧
      (dt.hour, dt.minute) ∈ keys ∧
      ∀ k ∈ keys, validKey k = true → toMicros dt ≤ toMicros (fireAfter t k)) := by
  obtain ⟨hv1, hv2, hv3, hv4, hv5, hv6, hv7, hv8⟩ := hv
  rw [get_next_schedule]
  by_cases hemp : keys.isEmpty = true
  · rw [if_pos hemp, List.isEmpty_iff.mp hemp]
    refine ⟨by simp, ?_⟩
    intro dt hdt
    exact absurd hdt (by simp)
  · rw [if_neg hemp]
    cases hft : (todayCands t).find? (fun hm => keys.contains hm) with
    | some hm =>
      have hmem := List.mem_of_find?_eq_some hft
      have hpred : keys.contains hm = true := List.find?_some hft
      have hkeys : hm ∈ keys := List.elem_iff.mp hpred
      obtain ⟨hvk, hgt⟩ := (mem_todayCands t hm).mp hmem
      obtain ⟨hb1, hb2, hb3, hb4⟩ := (validKey_iff hm).mp hvk
      constructor
      · constructor
        · intro h
          exact absurd h (by simp)
        · intro hall
          have hfalse := hall hm hkeys
          rw [hfalse] at hvk
          exact absurd hvk (by decide)
      · intro dt hdt
        rw [Option.some.injEq] at hdt
        rw [← hdt]
        refine ⟨?_, rfl, rfl, ?_, ?_⟩
        · simp only [toMicros]
          omega
        · exact hkeys
        · intro k hk hvkk
          obtain ⟨hc1, hc2, hc3, hc4⟩ := (validKey_iff k).mp hvkk
          by_cases hkgt : t.hour < k.1 ∨ (k.1 = t.hour ∧ t.minute < k.2)
          · have hktoday : k ∈ todayCands t := (mem_todayCands t k).mpr ⟨hvkk, hkgt⟩
            have hscore := find_first_min (fun hm => keys.contains hm) keyScore
              (todayCands t) (todayCands_pairwise t) hm hft k hktoday
              (List.elem_iff.mpr hk)
            rw [fireAfter, if_pos hkgt]
            simp only [toMicros, keyScore] at hscore ⊢
            omega
          · rw [fireAfter, if_neg hkgt]
            simp only [toMicros]
            omega
    | none =>
      have htoday := List.find?_eq_none.mp hft
      cases hfa : allCands.find? (fun hm => keys.contains hm) with
      | some hm =>
        have hmem := List.mem_of_find?_eq_some hfa
        have hpred : keys.contains hm = true := List.find?_some hfa
        have hkeys : hm ∈ keys := List.elem_iff.mp hpred
        have hvk := (mem_allCands hm).mp hmem
        obtain ⟨hb1, hb2, hb3, hb4⟩ := (validKey_iff hm).mp hvk
        constructor
        · constructor
          · intro h
            exact absurd h (by simp)
          · intro hall
            have hfalse := hall hm hkeys
            rw [hfalse] at hvk
            exact absurd hvk (by decide)
        · intro dt hdt
          rw [Option.some.injEq] at hdt
          rw [← hdt]
          refine ⟨?_, rfl, rfl, ?_, ?_⟩
          · simp only [toMicros]
            omega
          · exact hkeys
          · intro k hk hvkk
            obtain ⟨hc1, hc2, hc3, hc4⟩ := (validKey_iff k).mp hvkk
            have hknotgt : ¬(t.hour < k.1 ∨ (k.1 = t.hour ∧ t.minute < k.2)) := by
              intro hkgt
              have hktoday : k ∈ todayCands t := (mem_todayCands t k).mpr ⟨hvkk, hkgt⟩
              exact absurd (List.elem_iff.mpr hk) (htoday k hktoday)
            have hscore := find_first_min (fun hm => keys.contains hm) keyScore
              allCands allCands_pairwise hm hfa k ((mem_allCands k).mpr hvkk)
              (List.elem_iff.mpr hk)
            rw [fireAfter, if_neg hknotgt]
            simp only [toMicros, keyScore] at hscore ⊢
            omega
      | none =>
        have hall := List.find?_eq_none.mp hfa
        constructor
        · constructor
          · intro _
            intro k hk
            by_cases hvk : validKey k = true
            · have hkall : k ∈ allCands := (mem_allCands k).mpr hvk
              exact absurd (List.elem_iff.mpr hk) (hall k hkall)
            · exact Bool.not_eq_true _ |>.mp hvk
          · intro _
            rfl
        · intro dt hdt
          exact absurd hdt (by simp)

/-- Witness for the amended C6: map with the single key (10, 30), asked
from 09:15:20.000005 on day 0. -/
theorem next_schedule_correct_witness :
    (get_next_schedule [((10 : Int), (30 : Int))] ⟨0, 9, 15, 20, 5⟩ = none ↔
      ∀ k ∈ [((10 : Int), (30 : Int))], validKey k = false) ∧
    (∀ dt : LTime, get_next_schedule [((10 : Int), (30 : Int))] ⟨0, 9, 15, 20, 5⟩ = some dt →
      toMicros ⟨0, 9, 15, 20, 5⟩ < toMicros dt ∧ dt.second = 0 ∧ dt.micro = 0 ∧
      (dt.hour, dt.minute) ∈ [((10 : Int), (30 : Int))] ∧
      ∀ k ∈ [((10 : Int), (30 : Int))], validKey k = true →
        toMicros dt ≤ toMicros (fireAfter ⟨0, 9, 15, 20, 5⟩ k)) :=
  next_schedule_correct [((10 : Int), (30 : Int))] ⟨0, 9, 15, 20, 5⟩
    (by unfold validTime; norm_num)

end Fleetcron
